import Mathlib

/-!
Verification of the STEPS ensemble nowcast core
(`pysteps/nowcasts/steps.py`) against its natural-language specification.

The development is a shallow embedding: the validation logic, the
random-stream derivation, the precipitation-mask application, the
sub-timestep interpolation, the timestep scheduling / output assembly,
and the deterministic-mode worker are translated from the source into
executable Lean definitions.  External collaborators that live outside
the embedded file (extrapolation kernel, cascade decomposition /
recomposition, noise generators, scipy morphology, CDF matching) are
abstracted as function parameters; machine floats are modelled by `ℚ`,
with `Option ℚ` standing for values that may be NaN where NaN handling
matters.
-/

set_option autoImplicit false

namespace Steps

/-- The `timesteps` argument of `forecast`: either an integer count of
steps or an explicit list of (possibly fractional) times
(`steps.py`, lines 80-83). -/
inductive Timesteps where
  | count (n : Nat)
  | explicit (l : List ℚ)

/-- Python `sorted(l) == l` holds exactly when `l` is non-decreasing;
this is the check used by `_check_inputs` (`steps.py`, line 861).
Computed structurally over the list of adjacent pairs. -/
def pyAscending : List ℚ → Bool
  | [] => true
  | [_] => true
  | a :: b :: rest => decide (a ≤ b) && pyAscending (b :: rest)

/-- `pyAscending` decides exactly the non-decreasing (chained `≤`)
property. -/
theorem pyAscending_iff (l : List ℚ) :
    pyAscending l = true ↔ List.Chain' (fun a b => a ≤ b) l := by
  induction l with
  | nil => simp [pyAscending]
  | cons a t ih =>
      cases t with
      | nil => simp [pyAscending]
      | cons b r =>
          rw [pyAscending, List.chain'_cons, Bool.and_eq_true, decide_eq_true_iff]
          exact and_congr Iff.rfl ih

/-- Embedding of `_check_inputs` (`steps.py`, lines 849-862).
Array arguments are represented by their shapes; the checks are
performed in source order and the error strings match the source. -/
def check_inputs (precipShape velocityShape : List Nat)
    (timesteps : Timesteps) (arOrder : Nat) : Except String Unit :=
  if precipShape.length ≠ 3 then
    Except.error "precip must be a three-dimensional array"
  else if precipShape.headD 0 < arOrder + 1 then
    Except.error "precip.shape[0] < ar_order+1"
  else if velocityShape.length ≠ 3 then
    Except.error "velocity must be a three-dimensional array"
  else if precipShape.drop 1 ≠ velocityShape.drop 1 then
    Except.error "dimension mismatch between precip and velocity"
  else
    match timesteps with
    | Timesteps.count _ => Except.ok ()
    | Timesteps.explicit l =>
        if ¬ pyAscending l then
          Except.error "timesteps is not in ascending order"
        else Except.ok ()

/-- The arguments of `forecast` that take part in input validation and
in the pre-loop initialization (`steps.py`, lines 35-66).  Array
arguments are represented by their shapes plus the facts validation
inspects (finiteness of the velocity field). -/
structure Options where
  precipShape : List Nat
  velocityShape : List Nat
  velocityAllFinite : Bool
  timesteps : Timesteps
  nEnsMembers : Nat
  precipThr : Option ℚ
  kmperpixel : Option ℚ
  timestep : Option ℚ
  noiseMethod : Option String
  noiseStddevAdj : Option String
  arOrder : Nat
  velPertMethod : Option String
  conditional : Bool
  probmatchingMethod : Option String
  maskMethod : Option String

/-- Embedding of the option checks in the body of `forecast`
(`steps.py`, lines 277-308), in source order.  Note that none of these
checks (nor `_check_inputs`) inspects `probmatching_method`. -/
def validateOptions (o : Options) : Except String Unit :=
  if ¬ o.velocityAllFinite then
    Except.error "velocity contains non-finite values"
  else if ¬ (o.maskMethod ∈ [some "obs", some "sprog", some "incremental", none]) then
    Except.error "unknown mask method"
  else if o.conditional ∧ o.precipThr = none then
    Except.error "conditional=True but precip_thr is not set"
  else if o.maskMethod ≠ none ∧ o.precipThr = none then
    Except.error "mask_method is not None but precip_thr is not set"
  else if ¬ (o.noiseStddevAdj ∈ [some "auto", some "fixed", none]) then
    Except.error "unknown noise_std_dev_adj method"
  else if o.kmperpixel = none ∧ o.velPertMethod ≠ none then
    Except.error "vel_pert_method is set but kmperpixel=None"
  else if o.kmperpixel = none ∧ o.maskMethod = some "incremental" then
    Except.error "mask_method='incremental' but kmperpixel=None"
  else if o.timestep = none ∧ o.velPertMethod ≠ none then
    Except.error "vel_pert_method is set but timestep=None"
  else if o.timestep = none ∧ o.maskMethod = some "incremental" then
    Except.error "mask_method='incremental' but timestep=None"
  else Except.ok ()

/-- All of `forecast`'s input validation: `_check_inputs`
(`steps.py`, line 260) followed by the option checks
(lines 277-308). -/
def fullValidate (o : Options) : Except String Unit :=
  match check_inputs o.precipShape o.velocityShape o.timesteps o.arOrder with
  | Except.error e => Except.error e
  | Except.ok _ => validateOptions o

/-- Python-level failures the pre-loop code can raise: `ValueError`
from validation, or `NameError` when an unbound local name is read. -/
inductive PyError where
  | valueError (msg : String)
  | nameError (name : String)
deriving DecidableEq

/-- Embedding of `forecast`'s pre-main-loop control flow: validation
(lines 260-308), then the random-generator initialization, which binds
`randgen_prec`/`randgen_motion` only when `noise_method is not None`
(lines 522-533), then the velocity-perturbator initialization, whose
per-member loop body reads `randgen_motion[j]` unconditionally
(lines 535-547).  The loop body runs only when `n_ens_members > 0`.
`noise.get_method(vel_pert_method)` (line 536, a collaborator outside
`src/`) is modelled as accepting exactly the documented method name
"bps" (`steps.py`, line 119) and raising `ValueError` otherwise.
The printing and collaborator-fitting code in between (lines 310-520)
raises no Python-level error and is not modelled. -/
def forecastPreamble (o : Options) : Except PyError Unit :=
  match fullValidate o with
  | Except.error e => Except.error (PyError.valueError e)
  | Except.ok _ =>
    let randgenMotionBound := o.noiseMethod.isSome
    match o.velPertMethod with
    | none => Except.ok ()
    | some name =>
        if name ≠ "bps" then
          Except.error (PyError.valueError "unknown method")
        else if 0 < o.nEnsMembers ∧ ¬ randgenMotionBound then
          Except.error (PyError.nameError "randgen_motion")
        else Except.ok ()

/-- A fully valid option set except that probability matching is
"mean" while masking is disabled. -/
def optsMeanNoMask : Options :=
  { precipShape := [3, 2, 2]
    velocityShape := [2, 2, 2]
    velocityAllFinite := true
    timesteps := Timesteps.count 3
    nEnsMembers := 2
    precipThr := some (1 / 10)
    kmperpixel := none
    timestep := none
    noiseMethod := some "nonparametric"
    noiseStddevAdj := none
    arOrder := 2
    velPertMethod := none
    conditional := false
    probmatchingMethod := some "mean"
    maskMethod := none }

/-- Claim C1 (counterexample): a call with
`probmatching_method='mean'` and `mask_method=None` passes input
validation — no `ValueError` is raised during validation, contrary to
the claim that such calls fail fast. -/
theorem C1_counterexample :
    optsMeanNoMask.probmatchingMethod = some "mean" ∧
    optsMeanNoMask.maskMethod = none ∧
    fullValidate optsMeanNoMask = Except.ok () := by
  refine ⟨rfl, rfl, ?_⟩
  rfl

/-- Claim C1 (amended): input validation never inspects
`probmatching_method` — the validation result is unchanged under any
modification of that option.  In particular, mean matching without
masking is not rejected (`steps.py`, lines 260-308 contain no check
tying `probmatching_method` to `mask_method`). -/
theorem C1_amended (o : Options) (pm pm' : Option String) :
    fullValidate { o with probmatchingMethod := pm } =
      fullValidate { o with probmatchingMethod := pm' } := rfl

/-- A fully valid option set whose explicit timestep list contains a
repeated value. -/
def optsRepeatedTimes : Options :=
  { optsMeanNoMask with
    timesteps := Timesteps.explicit [1, 1, 2]
    probmatchingMethod := none }

/-- Claim C2 (counterexample): an explicit timestep list with a
repeated value — hence not strictly ascending — passes `_check_inputs`
and the rest of input validation without raising: the source check is
`sorted(timesteps) == timesteps` (line 861), which accepts
non-decreasing lists. -/
theorem C2_counterexample :
    optsRepeatedTimes.timesteps = Timesteps.explicit [1, 1, 2] ∧
    fullValidate optsRepeatedTimes = Except.ok () := by
  exact ⟨rfl, rfl⟩

/-- Claim C2 (amended): with otherwise-valid array shapes,
`_check_inputs` raises "timesteps is not in ascending order" exactly
when the explicit list is not non-decreasing; lists with repeated
values are accepted. -/
theorem C2_amended (pShape vShape : List Nat) (l : List ℚ) (ar : Nat)
    (h1 : pShape.length = 3) (h2 : ar + 1 ≤ pShape.headD 0)
    (h3 : vShape.length = 3) (h4 : pShape.drop 1 = vShape.drop 1) :
    check_inputs pShape vShape (Timesteps.explicit l) ar =
      (if pyAscending l then Except.ok ()
       else Except.error "timesteps is not in ascending order") ∧
    (pyAscending l = true ↔ List.Chain' (fun a b => a ≤ b) l) := by
  refine ⟨?_, pyAscending_iff l⟩
  unfold check_inputs
  simp only [h1, h3, h4, ne_eq, not_true_eq_false, if_false, ite_not]
  rw [if_neg (Nat.not_lt.mpr h2)]

/-- Claim C2 (amended), witness: a strictly descending list is
rejected by `_check_inputs` with the source's error message. -/
theorem C2_amended_witness :
    check_inputs [3, 2, 2] [2, 2, 2] (Timesteps.explicit [2, 1]) 2 =
      Except.error "timesteps is not in ascending order" := by
  have h := (C2_amended [3, 2, 2] [2, 2, 2] [2, 1] 2 (by decide) (by decide)
    (by decide) (by decide)).1
  have e : pyAscending [2, 1] = false := by decide
  rw [h, e]
  simp

/-- Claim C10: when `noise_method` is `None` but `vel_pert_method` is
the (only documented) velocity perturbation method "bps", input
validation succeeds, yet the pre-loop initialization reads the unbound
name `randgen_motion` (`steps.py`, line 542) and fails with a
`NameError` before the main forecast loop is ever reached: the list is
bound only under `noise_method is not None` (lines 523-533). -/
theorem C10_unbound_randgen_motion (o : Options)
    (hnoise : o.noiseMethod = none)
    (hvel : o.velPertMethod = some "bps")
    (hmem : 0 < o.nEnsMembers)
    (hval : fullValidate o = Except.ok ()) :
    forecastPreamble o = Except.error (PyError.nameError "randgen_motion") := by
  unfold forecastPreamble
  rw [hval, hvel, hnoise]
  simp [hmem]

/-- A valid option set with velocity perturbation enabled (with
`kmperpixel` and `timestep` supplied) but noise disabled. -/
def optsVelPertNoNoise : Options :=
  { precipShape := [3, 2, 2]
    velocityShape := [2, 2, 2]
    velocityAllFinite := true
    timesteps := Timesteps.count 3
    nEnsMembers := 2
    precipThr := none
    kmperpixel := some 1
    timestep := some 5
    noiseMethod := none
    noiseStddevAdj := none
    arOrder := 2
    velPertMethod := some "bps"
    conditional := false
    probmatchingMethod := none
    maskMethod := none }

/-- Claim C10, witness: on a concrete valid option set the preamble
fails with `NameError` on `randgen_motion`. -/
theorem C10_witness :
    forecastPreamble optsVelPertNoNoise =
      Except.error (PyError.nameError "randgen_motion") :=
  C10_unbound_randgen_motion optsVelPertNoNoise rfl rfl (by decide) rfl

/-- Embedding of the random-generator initialization
(`steps.py`, lines 522-533).  `draw s` models the deterministic value
of `RandomState(s).randint(0, high=1e9)`.  For each member in order,
the precipitation stream is seeded with the current seed, the motion
stream with the value drawn from the precipitation stream, and the
next member's seed with the value drawn from the motion stream. -/
def memberSeeds (draw : Nat → Nat) (seed : Nat) : Nat → List (Nat × Nat)
  | 0 => []
  | n + 1 => (seed, draw seed) :: memberSeeds draw (draw (draw seed)) n

/-- Helper for claim C9: element `j` of the seed chain is
`(draw^[2j] seed, draw^[2j+1] seed)`, independent of the ensemble
size `n`. -/
theorem memberSeeds_get (draw : Nat → Nat) :
    ∀ (j n seed : Nat), j < n →
      (memberSeeds draw seed n).get? j =
        some (draw^[2 * j] seed, draw^[2 * j + 1] seed)
  | 0, 0, _, h => absurd h (Nat.lt_irrefl 0)
  | 0, _ + 1, seed, _ => by
      simp [memberSeeds]
  | _ + 1, 0, _, h => absurd h (Nat.not_lt_zero _)
  | i + 1, m + 1, seed, h => by
      have hm : i < m := Nat.lt_of_succ_lt_succ h
      have step := memberSeeds_get draw i m (draw (draw seed)) hm
      have e1 : draw^[2 * (i + 1)] seed = draw^[2 * i] (draw (draw seed)) := by
        have h2 : 2 * (i + 1) = 2 * i + 2 := by ring
        rw [h2, Function.iterate_add_apply draw (2 * i) 2 seed]
        rfl
      have e2 : draw^[2 * (i + 1) + 1] seed = draw^[2 * i + 1] (draw (draw seed)) := by
        have h2 : 2 * (i + 1) + 1 = 2 * i + 1 + 2 := by ring
        rw [h2, Function.iterate_add_apply draw (2 * i + 1) 2 seed]
        rfl
      have hd : (memberSeeds draw seed (m + 1)).get? (i + 1) =
          (memberSeeds draw (draw (draw seed)) m).get? i := rfl
      rw [hd, step, e1, e2]

/-- Claim C9: the two random streams of member `j` are derived from
the single seed by the deterministic chained scheme
`(draw^[2j] seed, draw^[2j+1] seed)` — determined by member order and
independent of the total member count and of task completion order
(the streams are all created sequentially before the parallel loop
starts); and two runs with equal seeds obtain identical stream
assignments.  Output determinism itself is definitional in this pure
embedding: every quantity is a function of the seed, the inputs and
the options. -/
theorem C9_seed_chain (draw : Nat → Nat) (seed seed' : Nat) (n j : Nat)
    (hj : j < n) (hs : seed' = seed) :
    (memberSeeds draw seed n).get? j =
      some (draw^[2 * j] seed, draw^[2 * j + 1] seed) ∧
    memberSeeds draw seed' n = memberSeeds draw seed n := by
  exact ⟨memberSeeds_get draw j n seed hj, by rw [hs]⟩

/-- Claim C9, witness: with the successor function as the abstract
draw and seed 0, member 1 of a 3-member ensemble receives streams
seeded 2 and 3, as the chained scheme dictates. -/
theorem C9_seed_chain_witness :
    (memberSeeds Nat.succ 0 3).get? 1 =
      some (Nat.succ^[2 * 1] 0, Nat.succ^[2 * 1 + 1] 0) ∧
    memberSeeds Nat.succ 0 3 = memberSeeds Nat.succ 0 3 :=
  C9_seed_chain Nat.succ 0 0 3 1 (by decide) rfl

section MaskApplication

variable {ι : Type} [Fintype ι] [Nonempty ι]

/-- The per-step minimum forecast value `R_cmin = precip_f_new.min()`
(`steps.py`, line 675), computed over the recomposed field of the
current step only — not a global minimum.  Pixels are indexed by an
arbitrary nonempty finite type `ι`. -/
def fieldMin (X : ι → ℚ) : ℚ :=
  Finset.univ.inf' Finset.univ_nonempty X

/-- Mask application for the "obs" and "sprog" strategies
(`steps.py`, lines 680-683): pixels outside the boolean mask are set
to the per-step minimum. -/
def applyMaskObs (maskPrec : ι → Bool) (X : ι → ℚ) : ι → ℚ :=
  fun p => if maskPrec p then X p else fieldMin X

/-- The incremental-mask blend
`R_cmin + (precip_f_new - R_cmin) * mask_prec[j]` (`steps.py`,
line 677); `w` is the member's continuous mask weight field in
`[0, 1]`. -/
def incrementalBlend (w : ι → ℚ) (X : ι → ℚ) : ι → ℚ :=
  fun p => fieldMin X + (X p - fieldMin X) * w p

/-- The evolved mask `mask_prec_ = precip_f_new > R_cmin` derived
from the blended field (`steps.py`, line 678). -/
def evolvedMask (w : ι → ℚ) (X : ι → ℚ) : ι → Bool :=
  fun p => decide (fieldMin X < incrementalBlend w X p)

/-- Full incremental mask application (`steps.py`, lines 676-683):
blend, derive the evolved mask, then set everything outside it to the
per-step minimum. -/
def applyMaskIncremental (w : ι → ℚ) (X : ι → ℚ) : ι → ℚ :=
  fun p => if evolvedMask w X p then incrementalBlend w X p else fieldMin X

/-- Claim C3: under "incremental" masking every pixel outside the
evolved mask — and under "obs" masking every pixel outside the initial
mask — equals the per-step minimum `fieldMin X` of the recomposed
field `X` of that member and step (not a global minimum); moreover a
pixel with zero incremental weight is always outside the evolved mask.
The quantification over `X`, `w` and `M` covers every ensemble member
and every output time step. -/
theorem C3_mask_invariant (X w : ι → ℚ) (M : ι → Bool) (p : ι) :
    (evolvedMask w X p = false → applyMaskIncremental w X p = fieldMin X) ∧
    (M p = false → applyMaskObs M X p = fieldMin X) ∧
    (w p = 0 → evolvedMask w X p = false) := by
  refine ⟨fun h => ?_, fun h => ?_, fun h => ?_⟩
  · rw [applyMaskIncremental, h]
    simp
  · rw [applyMaskObs, h]
    simp
  · rw [evolvedMask, incrementalBlend]
    simp [h]

/-- A concrete recomposed field on two pixels. -/
def maskFieldX : Fin 2 → ℚ := fun i => if i = 0 then 1 else 5

/-- A concrete incremental weight field that zeroes pixel 0. -/
def maskWeightW : Fin 2 → ℚ := fun i => if i = 0 then 0 else 1

/-- A concrete observation mask excluding pixel 0. -/
def maskObsM : Fin 2 → Bool := fun i => decide (i ≠ 0)

/-- Claim C3, witness: on a concrete field, pixel 0 lies outside both
the evolved incremental mask and the observation mask, and both
strategies clamp it to the per-step minimum. -/
theorem C3_mask_invariant_witness :
    evolvedMask maskWeightW maskFieldX 0 = false ∧
    applyMaskIncremental maskWeightW maskFieldX 0 = fieldMin maskFieldX ∧
    applyMaskObs maskObsM maskFieldX 0 = fieldMin maskFieldX :=
  ⟨(C3_mask_invariant maskFieldX maskWeightW maskObsM 0).2.2 (by decide),
   (C3_mask_invariant maskFieldX maskWeightW maskObsM 0).1
     ((C3_mask_invariant maskFieldX maskWeightW maskObsM 0).2.2 (by decide)),
   (C3_mask_invariant maskFieldX maskWeightW maskObsM 0).2.1 (by decide)⟩

end MaskApplication

section Interpolation

/-- Embedding of the sub-timestep interpolation (`steps.py`,
lines 712-719).  For a requested time `t_sub` inside the current step,
`t_diff_prev_int = t_sub - int(t_sub)` (Python `int()` truncates
toward zero, which is the floor for the positive times reaching this
code); when it is strictly positive the previous and current processed
fields are blended linearly, otherwise `precip_f_prev[j]` is used
unchanged. -/
def interpolateField {ι : Type} (fPrev fNew : ι → ℚ) (tSub : ℚ) : ι → ℚ :=
  if 0 < tSub - Int.floor tSub then
    fun p => (1 - (tSub - Int.floor tSub)) * fPrev p +
      (tSub - Int.floor tSub) * fNew p
  else fPrev

/-- Claim C8: for a requested output time `t_sub > 0` with fractional
part `f = t_sub - floor t_sub`, the field handed to the extrapolator
is the linear blend `(1 - f) * previous + f * current` whenever
`f > 0`; when `f = 0` no blending occurs — the field is passed through
unchanged (it equals `precip_f_prev[j]`, which is also the value of
the blend formula at `f = 0`). -/
theorem C8_fractional_blend {ι : Type} (fPrev fNew : ι → ℚ) (tSub : ℚ)
    (_hpos : 0 < tSub) :
    (0 < tSub - Int.floor tSub →
      interpolateField fPrev fNew tSub =
        fun p => (1 - (tSub - Int.floor tSub)) * fPrev p +
          (tSub - Int.floor tSub) * fNew p) ∧
    (tSub - Int.floor tSub = 0 → interpolateField fPrev fNew tSub = fPrev) := by
  constructor
  · intro hf
    rw [interpolateField, if_pos hf]
  · intro hf
    rw [interpolateField, if_neg]
    rw [hf]
    exact lt_irrefl 0

/-- A concrete previous field on one pixel. -/
def prevFieldW : Fin 1 → ℚ := fun _ => 3

/-- A concrete current field on one pixel. -/
def newFieldW : Fin 1 → ℚ := fun _ => 7

/-- Claim C8, witness: at `t_sub = 3/2` the interpolated field is the
half-half blend, and at the integer time `t_sub = 2` the previous
field passes through unchanged. -/
theorem C8_fractional_blend_witness :
    (interpolateField prevFieldW newFieldW (3 / 2) =
      fun p => (1 - ((3 : ℚ) / 2 - Int.floor ((3 : ℚ) / 2))) * prevFieldW p +
        ((3 : ℚ) / 2 - Int.floor ((3 : ℚ) / 2)) * newFieldW p) ∧
    interpolateField prevFieldW newFieldW 2 = prevFieldW :=
  ⟨(C8_fractional_blend prevFieldW newFieldW (3 / 2) (by norm_num)).1 (by norm_num),
   (C8_fractional_blend prevFieldW newFieldW 2 (by norm_num)).2 (by norm_num)⟩

end Interpolation


section Scheduling

/-- The integer-count timestep normalization (`steps.py`,
lines 597-599 and 764-768): `timesteps = range(timesteps + 1)` and at
step `t` the single subtimestep is `t` itself. -/
def intSchedule (T : Nat) : List (List ℚ) :=
  (List.range (T + 1)).map (fun (t : Nat) => [(t : ℚ)])

/-- Modelled from the spec: `binned_timesteps`
(`pysteps.nowcasts.utils`, called at `steps.py` line 602) is not under
`src/`.  Spec 4.8 bins each requested time to the simulation step its
integer step equals, with the worked scenario 0.5, 1.0 ↦ step 1 and
1.5 ↦ step 2 — the ceiling for positive times, step 0 for the
prepended time 0. -/
def binOf (x : ℚ) : Nat := (Int.ceil x).toNat

/-- The largest bin index of a list of times: the number of
simulation steps an explicit list needs. -/
def maxBin (l : List ℚ) : Nat := (l.map binOf).foldr Nat.max 0

/-- The list-type timestep normalization (`steps.py`, lines 600-603
and 764-766): 0 is prepended (`original_timesteps = [0] + ...`), the
times are binned per simulation step, and each worker call receives
the original time values of its step's bin. -/
def listSchedule (ts : List ℚ) : List (List ℚ) :=
  (List.range (maxBin (0 :: ts) + 1)).map
    (fun t => (0 :: ts).filter (fun x => binOf x = t))

/-- The worker's output loop (`steps.py`, lines 703-761): exactly one
advected field is appended per subtimestep with `t_sub > 0`;
`produce` abstracts the interpolation and advection producing that
field. -/
def workerFields {F : Type} (produce : ℚ → F) : List ℚ → List F
  | [] => []
  | t :: rest =>
      if 0 < t then produce t :: workerFields produce rest
      else workerFields produce rest

/-- How many output fields the worker produces for one step's bin. -/
def workerOutputCount (subs : List ℚ) : Nat :=
  subs.countP (fun t => decide (0 < t))

/-- Total number of output fields per member over a whole schedule. -/
def totalOutputs (sched : List (List ℚ)) : Nat :=
  (sched.map workerOutputCount).sum

/-- The orchestrator's output assembly (`steps.py`, lines 805-816,
830-832 and 839-844): member `j`'s series is the concatenation over
steps of the worker's outputs for that step, and the final tensor
stacks the members.  `produce j t` abstracts member `j`'s advected
field for requested time `t`; the field type carries the spatial
shape. -/
def assembleOutputs {F : Type} (nEns : Nat) (produce : Nat → ℚ → F)
    (sched : List (List ℚ)) : List (List F) :=
  (List.range nEns).map
    (fun j => (sched.map (fun subs => workerFields (produce j) subs)).flatten)

theorem workerFields_length {F : Type} (produce : ℚ → F) (subs : List ℚ) :
    (workerFields produce subs).length = workerOutputCount subs := by
  induction subs with
  | nil => rfl
  | cons t rest ih =>
      by_cases h : (0 : ℚ) < t
      · simp [workerFields, workerOutputCount, h, List.countP_cons, ih,
          Nat.add_comm]
      · simp [workerFields, workerOutputCount, h, List.countP_cons, ih]

theorem list_sum_range (f : Nat → Nat) (n : Nat) :
    ((List.range n).map f).sum = ∑ t ∈ Finset.range n, f t := by
  induction n with
  | zero => simp
  | succ k ih =>
      rw [List.range_succ, List.map_append, List.sum_append,
        Finset.sum_range_succ, ih]
      simp

theorem sum_counts (l : List ℚ) (B : Nat) (hB : ∀ x ∈ l, binOf x ≤ B) :
    ((List.range (B + 1)).map
      (fun t => workerOutputCount (l.filter (fun x => binOf x = t)))).sum
      = workerOutputCount l := by
  induction l with
  | nil => simp [workerOutputCount]
  | cons a rest ih =>
      have hB' : ∀ x ∈ rest, binOf x ≤ B :=
        fun x hx => hB x (List.mem_cons_of_mem a hx)
      have key : ∀ t, workerOutputCount ((a :: rest).filter (fun x => binOf x = t))
          = (if binOf a = t then (if (0 : ℚ) < a then 1 else 0) else 0)
            + workerOutputCount (rest.filter (fun x => binOf x = t)) := by
        intro t
        by_cases hb : binOf a = t
        · by_cases hp : (0 : ℚ) < a
          · simp [List.filter_cons, hb, workerOutputCount, List.countP_cons, hp,
              Nat.add_comm]
          · simp [List.filter_cons, hb, workerOutputCount, List.countP_cons, hp]
        · simp [List.filter_cons, hb]
      have hmem : binOf a ∈ Finset.range (B + 1) :=
        Finset.mem_range.mpr (Nat.lt_succ_of_le (hB a (List.mem_cons_self a rest)))
      calc ((List.range (B + 1)).map
            (fun t => workerOutputCount ((a :: rest).filter (fun x => binOf x = t)))).sum
          = ∑ t ∈ Finset.range (B + 1),
              ((if binOf a = t then (if (0 : ℚ) < a then 1 else 0) else 0)
                + workerOutputCount (rest.filter (fun x => binOf x = t))) := by
            rw [list_sum_range]
            exact Finset.sum_congr rfl (fun t _ => key t)
        _ = (if (0 : ℚ) < a then 1 else 0) + workerOutputCount rest := by
            rw [Finset.sum_add_distrib, Finset.sum_ite_eq _ (binOf a)
              (fun _ => if (0 : ℚ) < a then 1 else 0), if_pos hmem]
            rw [← list_sum_range, ih hB']
        _ = workerOutputCount (a :: rest) := by
            simp [workerOutputCount, List.countP_cons, Nat.add_comm]

theorem le_maxBin (l : List ℚ) (x : ℚ) (hx : x ∈ l) : binOf x ≤ maxBin l := by
  induction l with
  | nil => cases hx
  | cons a t ih =>
      rcases List.mem_cons.mp hx with h | h
      · subst h
        simp only [maxBin, List.map_cons, List.foldr_cons]
        exact Nat.le_max_left _ _
      · refine le_trans (ih h) ?_
        simp only [maxBin, List.map_cons, List.foldr_cons]
        exact Nat.le_max_right _ _

theorem totalOutputs_int (T : Nat) : totalOutputs (intSchedule T) = T := by
  induction T with
  | zero => rfl
  | succ k ih =>
      have hpos : (0 : ℚ) < (k : ℚ) + 1 := by positivity
      unfold totalOutputs intSchedule at *
      rw [List.range_succ, List.map_append, List.map_append, List.sum_append, ih]
      simp [workerOutputCount, List.countP_cons, hpos]

theorem binOf_pos (x : ℚ) (hx : 0 < x) : 0 < binOf x := by
  unfold binOf
  have hc : (0 : ℤ) < Int.ceil x := Int.ceil_pos.mpr hx
  omega

theorem totalOutputs_list (ts : List ℚ) (h : ∀ x ∈ ts, 0 < x) :
    totalOutputs (listSchedule ts) = ts.length := by
  have hB : ∀ x ∈ (0 :: ts), binOf x ≤ maxBin (0 :: ts) :=
    fun x hx => le_maxBin _ x hx
  have hs := sum_counts (0 :: ts) (maxBin (0 :: ts)) hB
  unfold totalOutputs listSchedule
  rw [List.map_map]
  have hcomp : (workerOutputCount ∘ fun t => (0 :: ts).filter (fun x => binOf x = t))
      = fun t => workerOutputCount ((0 :: ts).filter (fun x => binOf x = t)) := rfl
  rw [hcomp, hs]
  have h0 : ¬ ((0 : ℚ) < 0) := lt_irrefl 0
  simp only [workerOutputCount, List.countP_cons, h0, decide_eq_true_eq, if_false]
  rw [List.countP_eq_length.mpr (fun a ha => decide_eq_true (h a ha))]
  simp

theorem intSchedule_head (T : Nat) : (intSchedule T).headD [] = [(0 : ℚ)] := by
  unfold intSchedule
  rw [List.range_succ_eq_map]
  simp

theorem listSchedule_head (ts : List ℚ) (h : ∀ x ∈ ts, 0 < x) :
    (listSchedule ts).headD [] = [(0 : ℚ)] := by
  unfold listSchedule
  rw [List.range_succ_eq_map]
  simp only [List.map_cons, List.headD_cons]
  have h0 : binOf 0 = 0 := by unfold binOf; simp
  have hnil : ts.filter (fun x => decide (binOf x = 0)) = [] := by
    refine List.filter_eq_nil_iff.mpr (fun a ha => ?_)
    have hp := binOf_pos a (h a ha)
    simp only [decide_eq_true_eq]
    omega
  rw [List.filter_cons, if_pos (by simp [h0]), hnil]

theorem assemble_get {F : Type} (nEns : Nat) (produce : Nat → ℚ → F)
    (sched : List (List ℚ)) (j : Nat) (hj : j < nEns) :
    ((assembleOutputs nEns produce sched)[j]?).map List.length =
      some (totalOutputs sched) := by
  unfold assembleOutputs
  rw [List.getElem?_map, List.getElem?_range hj]
  simp only [Option.map_some']
  congr 1
  rw [List.length_flatten, List.map_map]
  unfold totalOutputs
  congr 1
  exact List.map_congr_left (fun subs _ => workerFields_length (produce j) subs)

/-- Claim C5: with `return_output=True` the assembled output has one
entry per ensemble member, every member's series has exactly one field
per requested output time (`T` for an integer count, `ts.length` for
an explicit list of positive times), the spatial shape of each field
is the input shape (carried by the type `Fin m → Fin n → ℚ` of
`produce`), and simulation step 0 — the head of either schedule —
never contributes an output field.  The explicit-list binning is
modelled from spec 4.8 because `binned_timesteps` lives outside
`src/`; the integer-count branch is fully from the source. -/
theorem C5_output_shape (m n nEns T : Nat)
    (produce : Nat → ℚ → (Fin m → Fin n → ℚ))
    (ts : List ℚ) (hts : ∀ x ∈ ts, 0 < x) :
    (assembleOutputs nEns produce (intSchedule T)).length = nEns ∧
    (assembleOutputs nEns produce (listSchedule ts)).length = nEns ∧
    (∀ j, j < nEns →
      ((assembleOutputs nEns produce (intSchedule T))[j]?).map List.length =
        some T) ∧
    (∀ j, j < nEns →
      ((assembleOutputs nEns produce (listSchedule ts))[j]?).map List.length =
        some ts.length) ∧
    workerOutputCount ((intSchedule T).headD []) = 0 ∧
    workerOutputCount ((listSchedule ts).headD []) = 0 := by
  refine ⟨?_, ?_, ?_, ?_, ?_, ?_⟩
  · unfold assembleOutputs
    simp
  · unfold assembleOutputs
    simp
  · intro j hj
    rw [assemble_get nEns produce _ j hj, totalOutputs_int]
  · intro j hj
    rw [assemble_get nEns produce _ j hj, totalOutputs_list ts hts]
  · rw [intSchedule_head]
    rfl
  · rw [listSchedule_head ts hts]
    rfl

/-- A concrete abstract field producer for the C5 witness. -/
def produceW : Nat → ℚ → (Fin 2 → Fin 2 → ℚ) := fun _ _ _ _ => 0

/-- Claim C5, witness: two members, three integer steps and the
explicit fractional list `[1/2, 1, 3/2]` all yield per-member series
of length 3, and step 0 of both schedules produces nothing. -/
theorem C5_output_shape_witness :
    (assembleOutputs 2 produceW (intSchedule 3)).length = 2 ∧
    ((assembleOutputs 2 produceW (intSchedule 3))[0]?).map List.length = some 3 ∧
    ((assembleOutputs 2 produceW (listSchedule [1 / 2, 1, 3 / 2]))[1]?).map
      List.length = some 3 ∧
    workerOutputCount ((intSchedule 3).headD []) = 0 ∧
    workerOutputCount ((listSchedule [1 / 2, 1, 3 / 2]).headD []) = 0 := by
  have h := C5_output_shape 2 2 2 3 produceW [1 / 2, 1, 3 / 2]
    (by intro x hx; fin_cases hx <;> norm_num)
  exact ⟨h.1, h.2.2.1 0 (by decide), h.2.2.2.1 1 (by decide),
    h.2.2.2.2.1, h.2.2.2.2.2⟩

/-- `numpy.squeeze`: removes every axis of extent 1 from a shape. -/
def squeezeShape (shape : List Nat) : List Nat :=
  shape.filter (fun d => decide (d ≠ 1))

/-- The callback invocation logic (`steps.py`, lines 825-828): per
simulation step the per-member outputs are stacked into shape
`(n_ens_members, k, h, w)` where `k` is the step's output count; the
callback is invoked only when `k > 0` (`shape[1] > 0`), with the
stack's `squeeze()`.  The value returned is the list of argument
shapes passed to the callback over the whole run. -/
def callbackCalls (nEns hDim wDim : Nat) (sched : List (List ℚ)) :
    List (List Nat) :=
  sched.filterMap (fun subs =>
    if 0 < workerOutputCount subs then
      some (squeezeShape [nEns, workerOutputCount subs, hDim, wDim])
    else none)

/-- Claim C7 (counterexample): with one ensemble member, 2×2 fields
and one integer timestep there are two simulated steps but the
callback is invoked once, and its argument is the 2-D shape `[2, 2]`
(`squeeze` drops the member axis too), not the claimed 3-D
`(n_ens_members, h, w) = [1, 2, 2]`. -/
theorem C7_counterexample :
    (intSchedule 1).length = 2 ∧
    callbackCalls 1 2 2 (intSchedule 1) = [[2, 2]] ∧
    (callbackCalls 1 2 2 (intSchedule 1)).length ≠ (intSchedule 1).length ∧
    ([2, 2] : List Nat) ≠ [1, 2, 2] := by
  refine ⟨rfl, rfl, by decide, by decide⟩

/-- Claim C7 (amended): the callback is invoked once per simulation
step that produces at least one output field (steps with none —
always including step 0 — are skipped), and the argument is the
`squeeze()` of the `(n_ens_members, k, h, w)` stack; in the common
case `k = 1` with more than one member and non-degenerate spatial
dimensions this is exactly the documented 3-D shape
`(n_ens_members, h, w)`. -/
theorem C7_amended (nEns hDim wDim : Nat) (sched : List (List ℚ)) :
    (callbackCalls nEns hDim wDim sched).length =
      (sched.filter (fun subs => decide (0 < workerOutputCount subs))).length ∧
    (nEns ≠ 1 → hDim ≠ 1 → wDim ≠ 1 →
      squeezeShape [nEns, 1, hDim, wDim] = [nEns, hDim, wDim]) := by
  constructor
  · induction sched with
    | nil => rfl
    | cons subs rest ih =>
        by_cases h : 0 < workerOutputCount subs
        · simp [callbackCalls, List.filterMap_cons, List.filter_cons, h] at ih ⊢
          exact ih
        · simp [callbackCalls, List.filterMap_cons, List.filter_cons, h] at ih ⊢
          exact ih
  · intro h1 h2 h3
    simp [squeezeShape, h1, h2, h3]

/-- Claim C7 (amended), witness: three members, 2×2 fields, two
integer steps — two of the three simulated steps invoke the callback,
and the squeezed shape in the `k = 1` case is `[3, 2, 2]`. -/
theorem C7_amended_witness :
    (callbackCalls 3 2 2 (intSchedule 2)).length =
      ((intSchedule 2).filter
        (fun subs => decide (0 < workerOutputCount subs))).length ∧
    squeezeShape [3, 1, 2, 2] = [3, 2, 2] := by
  have h := C7_amended 3 2 2 (intSchedule 2)
  exact ⟨h.1, h.2 (by decide) (by decide) (by decide)⟩

end Scheduling

section DeterministicMode

/-- The configured mask strategy (`steps.py`, lines 557-578, 671-699).
Collaborators living outside the embedded file are carried as
functions: `sprog` holds `compute_percentile_mask`
(`pysteps.nowcasts.utils`), `incremental` holds the composite
`_compute_incremental_mask(... >= precip_thr)` update (scipy
morphology, lines 696-699 and 865-880). -/
inductive MaskMode (ι : Type) where
  | off
  | obs (mask : ι → Bool)
  | sprog (sprogMask : (ι → ℚ) → (ι → Bool))
  | incremental (updateMask : (ι → ℚ) → (ι → ℚ))

/-- The configured probability matching (`steps.py`, lines 685-694).
`cdf` carries the external `nonparam_match_empirical_cdf` collaborator
applied against the fixed most recent observation; `meanShift` is the
in-source conditional-mean shift with its precomputed target `mu_0`
(line 553). -/
inductive PMMode (ι : Type) where
  | off
  | cdf (matchCdf : (ι → ℚ) → (ι → ℚ))
  | meanShift (thr mu0 : ℚ)

/-- Probability matching application (`steps.py`, lines 685-694).
For `meanShift`: `MASK = precip_f_new >= precip_thr`, then the masked
pixels are shifted by `mu_0 - mu_fct` where `mu_fct` is their mean
(an empty mask makes `np.mean` degenerate; here division by zero
yields 0). -/
def applyPM {ι : Type} [Fintype ι] : PMMode ι → (ι → ℚ) → (ι → ℚ)
  | PMMode.off, f => f
  | PMMode.cdf m, f => m f
  | PMMode.meanShift thr mu0, f =>
      let s := Finset.univ.filter (fun p => thr ≤ f p)
      let mu := (∑ p ∈ s, f p) / (s.card : ℚ)
      fun p => if thr ≤ f p then f p - mu + mu0 else f p

/-- Mask application inside the worker (`steps.py`, lines 671-683),
dispatching on the configured strategy; `stepMask` is the shared
current-step mask (static for "obs", recomputed per step for
"sprog"), `w` the member's incremental weight field. -/
def applyMaskStep {ι : Type} [Fintype ι] [Nonempty ι] (mode : MaskMode ι)
    (stepMask : ι → Bool) (w : ι → ℚ) (f : ι → ℚ) : ι → ℚ :=
  match mode with
  | MaskMode.off => f
  | MaskMode.obs m => applyMaskObs m f
  | MaskMode.sprog _ => applyMaskObs stepMask f
  | MaskMode.incremental _ => applyMaskIncremental w f

/-- The incremental-mask update for the next step (`steps.py`,
lines 696-699), applied to the post-matching field; other strategies
leave the member weight unchanged. -/
def updateMaskWeight {ι : Type} (mode : MaskMode ι) (w : ι → ℚ)
    (f : ι → ℚ) : ι → ℚ :=
  match mode with
  | MaskMode.incremental upd => upd f
  | _ => w

/-- Per-member mutable state: the slots of the outer arrays indexed by
the member `j` (`precip_f_prev[j]`, `mask_prec[j]`, `t_prev[j]`,
`t_total[j]`, `displacement[j]`; `steps.py`, lines 549, 578, 606-608).
The member cascade is omitted because in deterministic mode it is
pinned to the shared companion trajectory every step (line 654). -/
structure MemberState (ι D : Type) where
  prevField : ι → ℚ
  maskWeight : ι → ℚ
  tPrev : ℚ
  tTotal : ℚ
  disp : Option D

/-- Fixed configuration and collaborators of a deterministic-mode
(`noise_method=None`, `vel_pert_method=None`) run: cascade
recomposition (lines 659-669), the companion AR(p) iteration
(lines 788-791), mask and matching strategies, the domain-mask
restamping of line 701 (NaN sentinel abstracted), and the
extrapolator with the unperturbed velocity field baked in —
`extrap field t_diff disp` models lines 730-736 and `advance` the
`None`-input displacement-only call of lines 750-756. -/
structure DetConfig (ι C D : Type) where
  recomp : C → (ι → ℚ)
  evolveM : C → C
  maskMode : MaskMode ι
  pmMode : PMMode ι
  stamp : (ι → ℚ) → (ι → ℚ)
  extrap : (ι → ℚ) → ℚ → Option D → ((ι → ℚ) × D)
  advance : ℚ → Option D → D

/-- The worker's advection loop over the step's subtimesteps
(`steps.py`, lines 711-738): for each `t_sub > 0`, interpolate,
advect by `t_sub - t_prev`, accumulate the output field and update
`t_total`, `displacement` and `t_prev`. -/
def advectSubs {ι C D : Type} (cfg : DetConfig ι C D)
    (fPrev fNew : ι → ℚ) :
    List ℚ → ℚ → ℚ → Option D → (List (ι → ℚ) × ℚ × ℚ × Option D)
  | [], tPrev, tTotal, disp => ([], tPrev, tTotal, disp)
  | tSub :: rest, tPrev, tTotal, disp =>
      if 0 < tSub then
        let fIp := interpolateField fPrev fNew tSub
        let tDiff := tSub - tPrev
        let r := cfg.extrap fIp tDiff disp
        let next := advectSubs cfg fPrev fNew rest tSub (tTotal + tDiff) (some r.2)
        (r.1 :: next.1, next.2)
      else
        advectSubs cfg fPrev fNew rest tPrev tTotal disp

/-- The deterministic-mode worker (`steps.py`, lines 617-761, with
`noise_method is None` and `vel_pert_method is None`): the member
cascade is pinned to the shared companion trajectory (line 654), the
cascade is recomposed, the mask strategy and probability matching are
applied, the incremental mask is updated for the next step, the
domain mask is restamped, and the result is advected to each positive
subtimestep; if the step's bin is empty the displacement alone is
advanced by `t + 1 - t_prev` (lines 740-757).  `precip_f_prev[j]` is
set to the fully processed new field (line 759). -/
def detWorker {ι C D : Type} [Fintype ι] [Nonempty ι]
    (cfg : DetConfig ι C D) (precipM : C) (stepMask : ι → Bool)
    (t : Nat) (subs : List ℚ) (s : MemberState ι D) :
    MemberState ι D × List (ι → ℚ) :=
  let fNew0 := cfg.recomp precipM
  let fNew1 := applyMaskStep cfg.maskMode stepMask s.maskWeight fNew0
  let fNew2 := applyPM cfg.pmMode fNew1
  let w2 := updateMaskWeight cfg.maskMode s.maskWeight fNew2
  let fNew := cfg.stamp fNew2
  if subs.isEmpty then
    ({ prevField := fNew, maskWeight := w2,
       tPrev := (t : ℚ) + 1,
       tTotal := s.tTotal + ((t : ℚ) + 1 - s.tPrev),
       disp := some (cfg.advance ((t : ℚ) + 1 - s.tPrev) s.disp) }, [])
  else
    let adv := advectSubs cfg s.prevField fNew subs s.tPrev s.tTotal s.disp
    ({ prevField := fNew, maskWeight := w2, tPrev := adv.2.1,
       tTotal := adv.2.2.1, disp := adv.2.2.2 }, adv.1)

/-- Shared step-synchronous state: the companion AR trajectory and the
current step mask (`steps.py`, lines 555-578, 787-803). -/
structure SharedState (ι C : Type) where
  precipM : C
  stepMask : ι → Bool

/-- The orchestrator's shared update at the start of every step
(`steps.py`, lines 787-803): with noise disabled the companion
trajectory always advances; under "sprog" the step mask is recomputed
from its recomposition via `compute_percentile_mask`. -/
def evolveShared {ι C D : Type} (cfg : DetConfig ι C D)
    (sh : SharedState ι C) : SharedState ι C :=
  let m2 := cfg.evolveM sh.precipM
  let mask2 :=
    match cfg.maskMode with
    | MaskMode.sprog f => f (cfg.recomp m2)
    | _ => sh.stepMask
  ⟨m2, mask2⟩

/-- The main loop (`steps.py`, lines 764-834) in deterministic mode:
per step, the shared state advances, then every member runs the
worker on its own state slot and appends its outputs to its series. -/
def detRunAux {ι C D : Type} [Fintype ι] [Nonempty ι]
    (cfg : DetConfig ι C D) :
    List (List ℚ) → Nat → SharedState ι C →
    List (MemberState ι D × List (ι → ℚ)) →
    List (MemberState ι D × List (ι → ℚ))
  | [], _, _, members => members
  | subs :: rest, t, sh, members =>
      let sh2 := evolveShared cfg sh
      detRunAux cfg rest (t + 1) sh2
        (members.map (fun sacc =>
          let r := detWorker cfg sh2.precipM sh2.stepMask t subs sacc.1
          (r.1, sacc.2 ++ r.2)))

/-- The full deterministic-mode run: all per-member slots are
initialized with copies of the same value (`steps.py`, lines 489,
517-520, 549-550, 578, 606-608). -/
def detRun {ι C D : Type} [Fintype ι] [Nonempty ι]
    (cfg : DetConfig ι C D) (sched : List (List ℚ)) (nEns : Nat)
    (sh0 : SharedState ι C) (s0 : MemberState ι D) :
    List (MemberState ι D × List (ι → ℚ)) :=
  detRunAux cfg sched 0 sh0 (List.replicate nEns (s0, []))

/-- A single member's trajectory through the same loop. -/
def detSoloAux {ι C D : Type} [Fintype ι] [Nonempty ι]
    (cfg : DetConfig ι C D) :
    List (List ℚ) → Nat → SharedState ι C →
    (MemberState ι D × List (ι → ℚ)) → (MemberState ι D × List (ι → ℚ))
  | [], _, _, p => p
  | subs :: rest, t, sh, p =>
      let sh2 := evolveShared cfg sh
      let r := detWorker cfg sh2.precipM sh2.stepMask t subs p.1
      detSoloAux cfg rest (t + 1) sh2 (r.1, p.2 ++ r.2)

theorem detRunAux_replicate {ι C D : Type} [Fintype ι] [Nonempty ι]
    (cfg : DetConfig ι C D) (sched : List (List ℚ)) :
    ∀ (t : Nat) (sh : SharedState ι C) (n : Nat)
      (p : MemberState ι D × List (ι → ℚ)),
      detRunAux cfg sched t sh (List.replicate n p) =
        List.replicate n (detSoloAux cfg sched t sh p) := by
  induction sched with
  | nil => intro t sh n p; rfl
  | cons subs rest ih =>
      intro t sh n p
      simp only [detRunAux, detSoloAux, List.map_replicate]
      exact ih (t + 1) (evolveShared cfg sh) n _

/-- Claim C6: in deterministic mode (noise disabled and velocity
perturbation disabled; the worker branch of line 654 pins every
member to the shared companion trajectory) every ensemble member's
output time series is identical to every other member's, for every
schedule, every configuration of collaborators and every common
initial state. -/
theorem C6_deterministic_members {ι C D : Type} [Fintype ι] [Nonempty ι]
    (cfg : DetConfig ι C D) (sched : List (List ℚ)) (nEns : Nat)
    (sh0 : SharedState ι C) (s0 : MemberState ι D) (j k : Nat)
    (hj : j < nEns) (hk : k < nEns) :
    ((detRun cfg sched nEns sh0 s0)[j]?).map Prod.snd =
      ((detRun cfg sched nEns sh0 s0)[k]?).map Prod.snd := by
  unfold detRun
  rw [detRunAux_replicate]
  rw [List.getElem?_replicate, List.getElem?_replicate]
  rw [if_pos hj, if_pos hk]

/-- A concrete one-pixel deterministic configuration for the C6
witness. -/
def cfgW : DetConfig (Fin 1) ℚ Unit :=
  { recomp := fun c _ => c
    evolveM := fun c => c + 1
    maskMode := MaskMode.off
    pmMode := PMMode.off
    stamp := id
    extrap := fun f _ _ => (f, ())
    advance := fun _ _ => () }

/-- Initial shared state for the C6 witness. -/
def sh0W : SharedState (Fin 1) ℚ := ⟨0, fun _ => true⟩

/-- Initial member state for the C6 witness. -/
def s0W : MemberState (Fin 1) Unit :=
  { prevField := fun _ => 0
    maskWeight := fun _ => 1
    tPrev := 0
    tTotal := 0
    disp := none }

/-- Claim C6, witness: a two-member, two-step deterministic run gives
member 0 and member 1 identical output series. -/
theorem C6_deterministic_members_witness :
    ((detRun cfgW (intSchedule 2) 2 sh0W s0W)[0]?).map Prod.snd =
      ((detRun cfgW (intSchedule 2) 2 sh0W s0W)[1]?).map Prod.snd :=
  C6_deterministic_members cfgW (intSchedule 2) 2 sh0W s0W 0 1
    (by decide) (by decide)

end DeterministicMode

section DomainMask

/-- The domain mask of non-finite pixels (`steps.py`, lines 388-391):
a pixel is marked when it is non-finite (`none`) in any of the
`ar_order+1` input frames. -/
def domainMask {ι : Type} (frames : List (ι → Option ℚ)) : ι → Bool :=
  fun p => frames.any (fun f => (f p).isNone)

/-- `np.nanmin` over a frame (`steps.py`, line 428): the minimum of
the finite values (degenerate all-NaN frames, where numpy would
return NaN, default to 0 here; they do not occur in the inputs
considered).  Pixels are enumerated as `Fin n` to keep the fold
executable. -/
def nanMin {n : Nat} (f : Fin n → Option ℚ) : ℚ :=
  (((List.finRange n).filterMap f).min?).getD 0

/-- Per-frame imputation (`steps.py`, lines 425-428): every
non-finite pixel is replaced by the frame's own finite minimum, so
the imputed frame is finite everywhere. -/
def imputeFrame {n : Nat} (f : Fin n → Option ℚ) : Fin n → ℚ :=
  fun p => (f p).getD (nanMin f)

/-- The domain-mask restamping (`steps.py`, line 701): the processed
new field is set to NaN on every domain-mask pixel. -/
def stampDomainMask {ι : Type} (dm : ι → Bool) (f : ι → Option ℚ) :
    ι → Option ℚ :=
  fun p => if dm p then none else f p

/-- The sub-timestep interpolation (`steps.py`, lines 712-719) on
fields that may contain NaN; the linear blend propagates NaN from
either operand, and with zero fractional part `precip_f_prev[j]` is
passed through unchanged (line 719). -/
def interpolateFieldO {ι : Type} (fPrev fNew : ι → Option ℚ) (tSub : ℚ) :
    ι → Option ℚ :=
  if 0 < tSub - Int.floor tSub then
    fun p =>
      match fPrev p, fNew p with
      | some a, some b =>
          some ((1 - (tSub - Int.floor tSub)) * a +
            (tSub - Int.floor tSub) * b)
      | _, _ => none
  else fPrev

/-- One member's NaN-relevant pipeline of a run (`steps.py`).
`process t` abstracts everything the worker computes before the
restamping — noise, AR iteration, recomposition, masking and
probability matching (lines 617-699) — at step `t`; it may be
anything, covering every member and every stochastic behaviour.
`extrap` is the external semi-Lagrangian kernel with the (possibly
perturbed) velocity baked in, taking the field, `t_diff_prev` and the
previous displacement (lines 725-736); `advance` is the `None`-input
displacement-only call (lines 747-756). -/
structure NanCfg (ι D : Type) where
  dm : ι → Bool
  process : Nat → (ι → Option ℚ)
  extrap : (ι → Option ℚ) → ℚ → Option D → ((ι → Option ℚ) × D)
  advance : ℚ → Option D → D

/-- The worker's advection loop (`steps.py`, lines 711-738) on
NaN-carrying fields: for each positive subtimestep, interpolate
between `precip_f_prev[j]` and the stamped new field, advect by
`t_sub - t_prev` and collect the output. -/
def nanAdvectSubs {ι D : Type} (cfg : NanCfg ι D)
    (fPrev fNew : ι → Option ℚ) :
    List ℚ → ℚ → Option D → (List (ι → Option ℚ) × ℚ × Option D)
  | [], tPrev, disp => ([], tPrev, disp)
  | tSub :: rest, tPrev, disp =>
      if 0 < tSub then
        let fIp := interpolateFieldO fPrev fNew tSub
        let r := cfg.extrap fIp (tSub - tPrev) disp
        let next := nanAdvectSubs cfg fPrev fNew rest tSub (some r.2)
        (r.1 :: next.1, next.2)
      else nanAdvectSubs cfg fPrev fNew rest tPrev disp

/-- One worker invocation (`steps.py`, lines 617-761), reduced to its
NaN-relevant effects: the processed field is stamped with NaN on the
domain mask (line 701), the positive subtimesteps are advected, an
empty bin advances only the displacement (lines 740-757), and —
crucially, at every step including `t = 0` — line 759 replaces
`precip_f_prev[j]` with the stamped new field.  Returns
(outputs, new `precip_f_prev[j]`, new `t_prev`, new displacement). -/
def nanWorker {ι D : Type} (cfg : NanCfg ι D) (t : Nat) (subs : List ℚ)
    (fPrev : ι → Option ℚ) (tPrev : ℚ) (disp : Option D) :
    List (ι → Option ℚ) × (ι → Option ℚ) × ℚ × Option D :=
  let fNew := stampDomainMask cfg.dm (cfg.process t)
  if subs.isEmpty then
    ([], fNew, (t : ℚ) + 1, some (cfg.advance ((t : ℚ) + 1 - tPrev) disp))
  else
    let adv := nanAdvectSubs cfg fPrev fNew subs tPrev disp
    (adv.1, fNew, adv.2.1, adv.2.2)

/-- The main loop (`steps.py`, lines 764-834) for one member,
collecting that member's output fields in order.  The worker is
dispatched unconditionally for every step, starting at `t = 0`
(lines 764, 805-810). -/
def nanRunAux {ι D : Type} (cfg : NanCfg ι D) :
    List (List ℚ) → Nat → (ι → Option ℚ) → ℚ → Option D →
    List (ι → Option ℚ)
  | [], _, _, _, _ => []
  | subs :: rest, t, fPrev, tPrev, disp =>
      let r := nanWorker cfg t subs fPrev tPrev disp
      r.1 ++ nanRunAux cfg rest (t + 1) r.2.1 r.2.2.1 r.2.2.2

/-- A member's full run: `precip_f_prev[j]` starts as the imputed —
fully finite — most recent observation (`steps.py`, lines 425-428,
590, 606), `t_prev = 0`, no displacement. -/
def nanRun {ι D : Type} (cfg : NanCfg ι D) (sched : List (List ℚ))
    (fPrev0 : ι → Option ℚ) : List (ι → Option ℚ) :=
  nanRunAux cfg sched 0 fPrev0 0 none

/-- Every field of `outs` is missing at every domain-mask pixel. -/
def allMissingOn {ι : Type} (dm : ι → Bool)
    (outs : List (ι → Option ℚ)) : Prop :=
  ∀ out ∈ outs, ∀ p, dm p = true → out p = none

theorem interpolateFieldO_none {ι : Type} (fPrev fNew : ι → Option ℚ)
    (tSub : ℚ) (p : ι) (hp : fPrev p = none) :
    interpolateFieldO fPrev fNew tSub p = none := by
  unfold interpolateFieldO
  by_cases h : 0 < tSub - Int.floor tSub
  · rw [if_pos h]
    simp only [hp]
  · rw [if_neg h]
    exact hp

theorem nanAdvectSubs_missing {ι D : Type} (cfg : NanCfg ι D)
    (hext : ∀ (f : ι → Option ℚ) (t : ℚ) (d : Option D) (p : ι),
      cfg.dm p = true → f p = none → (cfg.extrap f t d).1 p = none)
    (fPrev fNew : ι → Option ℚ)
    (hPrev : ∀ p, cfg.dm p = true → fPrev p = none) :
    ∀ (subs : List ℚ) (tPrev : ℚ) (disp : Option D),
      ∀ out ∈ (nanAdvectSubs cfg fPrev fNew subs tPrev disp).1,
        ∀ p, cfg.dm p = true → out p = none := by
  intro subs
  induction subs with
  | nil =>
      intro tPrev disp out hout
      simp [nanAdvectSubs] at hout
  | cons tSub rest ih =>
      intro tPrev disp out hout p hp
      by_cases h : 0 < tSub
      · simp only [nanAdvectSubs] at hout
        rw [if_pos h] at hout
        rcases List.mem_cons.mp hout with rfl | hmem
        · exact hext _ _ _ p hp (interpolateFieldO_none fPrev fNew tSub p (hPrev p hp))
        · exact ih tSub _ out hmem p hp
      · simp only [nanAdvectSubs] at hout
        rw [if_neg h] at hout
        exact ih tPrev disp out hout p hp

theorem nanAdvectSubs_no_positive {ι D : Type} (cfg : NanCfg ι D)
    (fPrev fNew : ι → Option ℚ) :
    ∀ (subs : List ℚ), (∀ x ∈ subs, x ≤ 0) → ∀ (tPrev : ℚ) (disp : Option D),
      (nanAdvectSubs cfg fPrev fNew subs tPrev disp).1 = [] := by
  intro subs
  induction subs with
  | nil => intro _ tPrev disp; rfl
  | cons tSub rest ih =>
      intro hall tPrev disp
      have h : ¬ (0 < tSub) := not_lt.mpr (hall tSub (List.mem_cons_self _ _))
      simp only [nanAdvectSubs]
      rw [if_neg h]
      exact ih (fun x hx => hall x (List.mem_cons_of_mem _ hx)) tPrev disp

theorem nanRunAux_missing {ι D : Type} (cfg : NanCfg ι D)
    (hext : ∀ (f : ι → Option ℚ) (t : ℚ) (d : Option D) (p : ι),
      cfg.dm p = true → f p = none → (cfg.extrap f t d).1 p = none) :
    ∀ (sched : List (List ℚ)) (t : Nat) (fPrev : ι → Option ℚ)
      (tPrev : ℚ) (disp : Option D),
      (∀ p, cfg.dm p = true → fPrev p = none) →
      ∀ out ∈ nanRunAux cfg sched t fPrev tPrev disp,
        ∀ p, cfg.dm p = true → out p = none := by
  intro sched
  induction sched with
  | nil =>
      intro t fPrev tPrev disp _ out hout
      simp [nanRunAux] at hout
  | cons subs rest ih =>
      intro t fPrev tPrev disp hPrev out hout p hp
      have hNew : ∀ q, cfg.dm q = true →
          stampDomainMask cfg.dm (cfg.process t) q = none := by
        intro q hq
        unfold stampDomainMask
        rw [hq]
        rfl
      simp only [nanRunAux] at hout
      unfold nanWorker at hout
      by_cases he : subs.isEmpty
      · rw [if_pos he] at hout
        simp only [List.nil_append] at hout
        exact ih (t + 1) _ _ _ hNew out hout p hp
      · rw [if_neg he] at hout
        rcases List.mem_append.mp hout with hmem | hmem
        · exact nanAdvectSubs_missing cfg hext fPrev _ hPrev subs tPrev disp out hmem p hp
        · exact ih (t + 1) _ _ _ hNew out hmem p hp

theorem nanRun_missing {ι D : Type} (cfg : NanCfg ι D)
    (hext : ∀ (f : ι → Option ℚ) (t : ℚ) (d : Option D) (p : ι),
      cfg.dm p = true → f p = none → (cfg.extrap f t d).1 p = none)
    (sched : List (List ℚ)) (h0 : ∀ x ∈ sched.headD [], x ≤ 0)
    (fPrev0 : ι → Option ℚ) :
    allMissingOn cfg.dm (nanRun cfg sched fPrev0) := by
  intro out hout p hp
  cases sched with
  | nil => simp [nanRun, nanRunAux] at hout
  | cons subs rest =>
      have h0' : ∀ x ∈ subs, x ≤ 0 := by
        simpa using h0
      have hNew : ∀ q, cfg.dm q = true →
          stampDomainMask cfg.dm (cfg.process 0) q = none := by
        intro q hq
        unfold stampDomainMask
        rw [hq]
        rfl
      unfold nanRun at hout
      simp only [nanRunAux] at hout
      unfold nanWorker at hout
      by_cases he : subs.isEmpty
      · rw [if_pos he] at hout
        simp only [List.nil_append] at hout
        exact nanRunAux_missing cfg hext rest 1 _ _ _ hNew out hout p hp
      · rw [if_neg he] at hout
        rw [nanAdvectSubs_no_positive cfg fPrev0 _ subs h0' 0 none] at hout
        simp only [List.nil_append] at hout
        exact nanRunAux_missing cfg hext rest 1 _ _ _ hNew out hout p hp

/-- Claim C4: every pixel non-finite in any input frame (the domain
mask, lines 388-391) is missing in every returned forecast field, for
every member, every requested time and both schedule kinds.  The
worker runs unconditionally from step 0 (lines 764, 805-810); its
step-0 pass already stamps the recomposed field with NaN on the
domain mask (line 701) and line 759 makes that stamped field the new
`precip_f_prev[j]`, so from the first produced output onward both
interpolation operands are missing there (the `f = 0` branch passes
the stamped previous field, the `f > 0` blend propagates NaN from the
stamped new field), and step 0 itself — whose bin holds only time
0 — produces no output.  `hext` is the excluded semi-Lagrangian
kernel's contract, modelled from the spec (§4.2: the mask pixels are
"always set to missing in the output"; §8's all-zero-motion scenario
makes the kernel the identity, which satisfies it definitionally). -/
theorem C4_domain_mask_missing {ι D : Type} (cfg : NanCfg ι D)
    (hext : ∀ (f : ι → Option ℚ) (t : ℚ) (d : Option D) (p : ι),
      cfg.dm p = true → f p = none → (cfg.extrap f t d).1 p = none)
    (T : Nat) (ts : List ℚ) (hts : ∀ x ∈ ts, 0 < x)
    (fPrev0 : ι → Option ℚ) :
    allMissingOn cfg.dm (nanRun cfg (intSchedule T) fPrev0) ∧
    allMissingOn cfg.dm (nanRun cfg (listSchedule ts) fPrev0) := by
  constructor
  · refine nanRun_missing cfg hext (intSchedule T) ?_ fPrev0
    rw [intSchedule_head]
    intro x hx
    rcases List.mem_singleton.mp hx with rfl
    exact le_refl 0
  · refine nanRun_missing cfg hext (listSchedule ts) ?_ fPrev0
    rw [listSchedule_head ts hts]
    intro x hx
    rcases List.mem_singleton.mp hx with rfl
    exact le_refl 0

/-- Input frame 0 of the C4 witness: finite everywhere. -/
def frame0W : Fin 2 → Option ℚ := fun _ => some 1

/-- Input frame 1 (most recent) of the C4 witness: NaN at pixel 0. -/
def frame1W : Fin 2 → Option ℚ := fun p => if p = 0 then none else some 2

/-- The C4 witness configuration: the domain mask of the two frames
above, an arbitrary finite processed field, and the identity
extrapolator (an all-zero motion field, spec §8's scenario). -/
def nanCfgW : NanCfg (Fin 2) Unit :=
  { dm := domainMask [frame0W, frame1W]
    process := fun _ _ => some 5
    extrap := fun f _ _ => (f, ())
    advance := fun _ _ => () }

/-- Claim C4, witness: pixel 0 is in the domain mask of the concrete
input, and a zero-motion run over one integer timestep, started from
the imputed observation, has every output missing at every domain-mask
pixel. -/
theorem C4_domain_mask_missing_witness :
    domainMask [frame0W, frame1W] 0 = true ∧
    allMissingOn nanCfgW.dm
      (nanRun nanCfgW (intSchedule 1) (fun p => some (imputeFrame frame1W p))) :=
  ⟨rfl,
    (C4_domain_mask_missing nanCfgW (fun _ _ _ _ _ hn => hn) 1 [1]
      (by intro x hx; rcases List.mem_singleton.mp hx with rfl; norm_num)
      (fun p => some (imputeFrame frame1W p))).1⟩

end DomainMask

end Steps
